import Mathlib

/-!
Verification of the File Decomposition & Validated Mutation subsystem of
`design_smell_pipeline` (files `refactoring/context_manager.py` and
`refactoring/validator.py`), against the natural-language specification.

Text is modelled as `List Char` (Python `str`), line lists as
`List (List Char)` (the result of `str.split('\n')`).  The embedding follows
the Python source line by line; Python `int` is modelled as `Int`,
list slicing with Python's negative-index and clamping semantics.
-/

namespace DSP

/-- Python `s.split('\n')`: always returns at least one (possibly empty)
piece; `"".split('\n') == [""]`. -/
def splitNl : List Char → List (List Char)
  | [] => [[]]
  | c :: rest =>
    if c = '\n' then [] :: splitNl rest
    else
      match splitNl rest with
      | [] => [[c]]
      | l :: ls => (c :: l) :: ls

/-- Python `'\n'.join(lines)`. -/
def joinNl (ls : List (List Char)) : List Char :=
  List.intercalate ['\n'] ls

theorem splitNl_ne_nil (s : List Char) : splitNl s ≠ [] := by
  cases s with
  | nil => simp [splitNl]
  | cons c rest =>
    simp only [splitNl]
    split
    · simp
    · cases splitNl rest <;> simp

theorem joinNl_cons (l : List Char) (ls : List (List Char)) (h : ls ≠ []) :
    joinNl (l :: ls) = l ++ '\n' :: joinNl ls := by
  cases ls with
  | nil => exact absurd rfl h
  | cons l' ls' => simp [joinNl, List.intercalate, List.intersperse]

theorem joinNl_singleton (l : List Char) : joinNl [l] = l := by
  simp [joinNl, List.intercalate, List.intersperse]

theorem joinNl_splitNl (s : List Char) : joinNl (splitNl s) = s := by
  induction s with
  | nil => rfl
  | cons c rest ih =>
    simp only [splitNl]
    split
    · rename_i h
      rw [joinNl_cons _ _ (splitNl_ne_nil rest), ih, h]
      rfl
    · rcases hrest : splitNl rest with _ | ⟨l, ls⟩
      · exact absurd hrest (splitNl_ne_nil rest)
      · rw [hrest] at ih
        cases ls with
        | nil =>
          rw [joinNl_singleton] at ih
          rw [joinNl_singleton, ← ih]
        | cons l' ls' =>
          rw [joinNl_cons _ _ (by simp)] at ih
          rw [joinNl_cons _ _ (by simp), ← ih]
          rfl

theorem not_mem_nl_splitNl (s : List Char) :
    ∀ l ∈ splitNl s, '\n' ∉ l := by
  induction s with
  | nil => intro l hl; simp [splitNl] at hl; simp [hl]
  | cons c rest ih =>
    intro l hl
    simp only [splitNl] at hl
    split at hl
    · rcases List.mem_cons.1 hl with h | h
      · simp [h]
      · exact ih l h
    · rename_i hc
      rcases hrest : splitNl rest with _ | ⟨m, ms⟩
      · exact absurd hrest (splitNl_ne_nil rest)
      · rw [hrest] at hl
        rcases List.mem_cons.1 hl with h | h
        · subst h
          intro hmem
          rcases List.mem_cons.1 hmem with h | h
          · exact hc h.symm
          · exact ih m (by rw [hrest]; exact List.mem_cons_self _ _) h
        · exact ih l (by rw [hrest]; exact List.mem_cons_of_mem _ h)

theorem splitNl_no_nl (l : List Char) (hl : '\n' ∉ l) : splitNl l = [l] := by
  induction l with
  | nil => rfl
  | cons c cs ih =>
    have hc : c ≠ '\n' := fun h => hl (by simp [h])
    have hcs : '\n' ∉ cs := fun h => hl (List.mem_cons_of_mem _ h)
    simp only [splitNl, if_neg hc, ih hcs]

theorem splitNl_append_nl (l : List Char) (s : List Char) (hl : '\n' ∉ l) :
    splitNl (l ++ '\n' :: s) = l :: splitNl s := by
  induction l with
  | nil => simp [splitNl]
  | cons c cs ih =>
    have hc : c ≠ '\n' := fun h => hl (by simp [h])
    have hcs : '\n' ∉ cs := fun h => hl (List.mem_cons_of_mem _ h)
    simp only [List.cons_append, splitNl, List.append_eq, if_neg hc, ih hcs]

theorem splitNl_joinNl (ls : List (List Char)) (hne : ls ≠ [])
    (hnl : ∀ l ∈ ls, '\n' ∉ l) : splitNl (joinNl ls) = ls := by
  induction ls with
  | nil => exact absurd rfl hne
  | cons l ls ih =>
    have hl : '\n' ∉ l := hnl l (List.mem_cons_self _ _)
    cases ls with
    | nil => rw [joinNl_singleton, splitNl_no_nl l hl]
    | cons l' ls' =>
      rw [joinNl_cons _ _ (by simp), splitNl_append_nl _ _ hl,
        ih (by simp) (fun m hm => hnl m (List.mem_cons_of_mem _ hm))]

/-! ## Python primitives -/

/-- The whitespace characters `str.strip()` removes (ASCII range). -/
def isPySpace (c : Char) : Bool :=
  c = ' ' || c = '\t' || c = '\n' || c = '\r' || c = '\x0b' || c = '\x0c'

/-- Python `str.strip()`. -/
def strip (l : List Char) : List Char :=
  ((l.dropWhile isPySpace).reverse.dropWhile isPySpace).reverse

/-- Normalise a Python slice index against a list of length `len`:
negative indices count from the end, and the result is clamped to
`[0, len]`. -/
def pyIndex (len : Nat) (i : Int) : Nat :=
  if i < 0 then ((len : Int) + i).toNat else min i.toNat len

/-- Python slice assignment `lines[a:b] = x` (returns the new list). -/
def spliceAssign (lines : List α) (a b : Int) (x : List α) : List α :=
  let a' := pyIndex lines.length a
  let b' := max a' (pyIndex lines.length b)
  lines.take a' ++ x ++ lines.drop b'

/-- Python `lines[a:b]`. -/
def pySlice (lines : List α) (a b : Int) : List α :=
  let a' := pyIndex lines.length a
  let b' := pyIndex lines.length b
  (lines.take b').drop a'

/-- Python truthiness of an optional string (`None` and `""` are falsy). -/
def truthy : Option (List Char) → Bool
  | none => false
  | some s => !s.isEmpty

/-! ## Data model (`context_manager.py`) -/

/-- `CodeChunk` (context_manager.py:24-36). Line numbers are 1-based
Python ints. -/
structure CodeChunk where
  chunk_id : Nat
  content : List Char
  start_line : Int
  end_line : Int
  chunk_type : String
  class_name : Option (List Char) := none
  method_name : Option (List Char) := none
  context_header : List Char := []
  original_content : List Char := []
  refactored_content : Option (List Char) := none
deriving Repr, DecidableEq, Inhabited

/-- `FileContext` (context_manager.py:39-46). -/
structure FileContext where
  file_path : String := ""
  package : List Char := []
  imports : List (List Char) := []
  chunks : List CodeChunk := []
  original_content : List Char := []
deriving Repr, DecidableEq, Inhabited

/-- `FileContext.get_context_header` (context_manager.py:48-58). -/
def get_context_header (package : List Char) (imports : List (List Char)) :
    List Char :=
  let lines : List (List Char) :=
    (if package.isEmpty then [] else
      ["package ".toList ++ package ++ [';'], []])
    ++ imports
    ++ (if imports.isEmpty then [] else [([] : List Char)])
  joinNl lines

/-! ## HeaderParser (`ContextManager._parse_header`, context_manager.py:152-177) -/

/-- Header state: the `package` / `imports` fields of `FileContext` that
`_parse_header` populates (initialised to `""` / `[]` in `process_file`). -/
structure Header where
  package : List Char
  imports : List (List Char)
deriving Repr, DecidableEq, Inhabited

/-- `\w` of Python `re` restricted to ASCII (letters, digits, underscore);
the verified inputs contain only ASCII. -/
def isWordChar (c : Char) : Bool :=
  c.isAlphanum || c = '_'

/-- `re.match(r'package\s+([\w.]+);', stripped)` returning the capture
group: the literal `package`, one or more whitespace characters, one or
more word-or-dot characters (captured), then `;`; trailing text is
allowed (`re.match` does not anchor the end).  The character classes
`\s`, `[\w.]` and `;` are pairwise disjoint, so greedy scanning without
backtracking is exact. -/
def matchPackage (l : List Char) : Option (List Char) :=
  if ("package".toList).isPrefixOf l then
    let r1 := l.drop 7
    let sp := r1.takeWhile isPySpace
    if sp.isEmpty then none
    else
      let r2 := r1.dropWhile isPySpace
      let name := r2.takeWhile (fun c => isWordChar c || c = '.')
      if name.isEmpty then none
      else
        match r2.drop name.length with
        | ';' :: _ => some name
        | _ => none
  else none

/-- Python `sub in s` on strings: `sub` occurs as a contiguous substring. -/
def containsSub (sub : List Char) : List Char → Bool
  | [] => sub.isEmpty
  | c :: rest => sub.isPrefixOf (c :: rest) || containsSub sub rest

/-- The loop body of `_parse_header`: scans lines in order, setting
`package` on each matching package line, appending each import line, and
stopping at the first line containing `class `, `interface ` or
`enum `. -/
def parse_header_go : List (List Char) → Header → Header
  | [], ctx => ctx
  | line :: rest, ctx =>
    let stripped := strip line
    if ("package ".toList).isPrefixOf stripped then
      parse_header_go rest
        (match matchPackage stripped with
         | some name => { ctx with package := name }
         | none => ctx)
    else if ("import ".toList).isPrefixOf stripped then
      parse_header_go rest { ctx with imports := ctx.imports ++ [stripped] }
    else if containsSub ("class ".toList) stripped
        || containsSub ("interface ".toList) stripped
        || containsSub ("enum ".toList) stripped then
      ctx
    else
      parse_header_go rest ctx

/-- `ContextManager._parse_header` applied to a fresh `FileContext`
(as `process_file` does). -/
def parse_header (content : List Char) : Header :=
  parse_header_go (splitNl content) ⟨[], []⟩

/-! ## MergeEngine (`ContextManager.merge_refactored_chunks`,
context_manager.py:367-405) -/

/-- The `for chunk in sorted_chunks` loop of `merge_refactored_chunks`:
each chunk with truthy `refactored_content` has its (offset-adjusted)
line range replaced by the refactored lines; the offset is advanced by
the line-count difference. -/
def mergeLoop : List CodeChunk → List (List Char) → Int → List (List Char)
  | [], lines, _ => lines
  | chunk :: rest, lines, offset =>
    if truthy chunk.refactored_content then
      let refactored_lines := splitNl (chunk.refactored_content.getD [])
      let original_lines := splitNl chunk.content
      let start := chunk.start_line - 1 + offset
      let stop := chunk.end_line - 1 + offset
      let lines' := spliceAssign lines start (stop + 1) refactored_lines
      mergeLoop rest lines'
        (offset + (refactored_lines.length : Int) - (original_lines.length : Int))
    else
      mergeLoop rest lines offset

/-- `ContextManager.merge_refactored_chunks`.  A single `full_file` chunk
returns its refactored content if truthy else its content; otherwise the
chunks are sorted by `start_line` (Python's stable `sorted`) and spliced
in turn.  No validation of the chunk ranges is performed anywhere. -/
def merge_refactored_chunks (ctx : FileContext) : List Char :=
  if ctx.chunks.length = 1 ∧ (ctx.chunks.headD default).chunk_type = "full_file" then
    let c := ctx.chunks.headD default
    match c.refactored_content with
    | some r => if r.isEmpty then c.content else r
    | none => c.content
  else
    let lines := splitNl ctx.original_content
    let sorted_chunks :=
      List.insertionSort (fun a b => a.start_line ≤ b.start_line) ctx.chunks
    joinNl (mergeLoop sorted_chunks lines 0)

/-- The small-file branch of `ContextManager.process_file`
(context_manager.py:117-141): parse the header, then store the whole
content as one `full_file` chunk with `start_line = 1` and
`end_line = len(content.split('\n'))`. -/
def process_file_small (content : List Char) : FileContext :=
  let hdr := parse_header content
  { file_path := ""
    package := hdr.package
    imports := hdr.imports
    chunks := [{ chunk_id := 0
                 content := content
                 start_line := 1
                 end_line := ((splitNl content).length : Int)
                 chunk_type := "full_file"
                 original_content := content }]
    original_content := content }

/-! ## Brace scanner (`ContextManager._find_block_end`,
context_manager.py:334-365) -/

/-- One-pass scan implementing `re.sub(r'"[^"]*"', '', line)`: outside a
literal, characters are kept; a `"` opens a literal whose characters are
buffered (in reverse) in `pend`; the closing `"` discards the buffer and
both quotes; an unterminated literal — which the regex would not match —
is emitted verbatim at the end. -/
def removeStringsGo : Bool → List Char → List Char → List Char
  | false, _, [] => []
  | true, pend, [] => pend.reverse
  | false, pend, c :: rest =>
    if c = '"' then removeStringsGo true [c] rest
    else c :: removeStringsGo false pend rest
  | true, pend, c :: rest =>
    if c = '"' then removeStringsGo false [] rest
    else removeStringsGo true (c :: pend) rest

/-- `re.sub(r'"[^"]*"', '', line)`: delete each non-overlapping
(shortest, left-to-right) pair of double quotes together with the
quote-free text between them; an unpaired trailing quote matches nothing
and is kept. -/
def removeStrings (l : List Char) : List Char := removeStringsGo false [] l

/-- `re.sub(r'//.*$', '', clean_line)`: delete everything from the first
`//` to the end of the line. -/
def removeLineComment : List Char → List Char
  | [] => []
  | [c] => [c]
  | c1 :: c2 :: rest =>
    if c1 = '/' ∧ c2 = '/' then []
    else c1 :: removeLineComment (c2 :: rest)

/-- The `clean_line` of `_find_block_end` (context_manager.py:352-353):
string literals deleted first, then line comments.  Block comments are
not treated. -/
def clean_line (line : List Char) : List Char :=
  removeLineComment (removeStrings line)

/-- The per-character state update of `_find_block_end`
(context_manager.py:355-360): `{` increments the count and sets
`in_block`; `}` decrements the count. -/
def braceStep (st : Int × Bool) (c : Char) : Int × Bool :=
  if c = '{' then (st.1 + 1, true)
  else if c = '}' then (st.1 - 1, st.2)
  else st

/-- The `for i in range(start, len(lines))` loop of `_find_block_end`:
returns the first index at which `in_block` holds with balance zero, else
the default `len(lines) - 1`. -/
def find_block_end_go :
    List (List Char) → Nat → Int → Bool → Nat → Nat
  | [], _, _, _, dflt => dflt
  | line :: rest, i, brace_count, in_block, dflt =>
    let st := (clean_line line).foldl braceStep (brace_count, in_block)
    if st.2 ∧ st.1 = 0 then i
    else find_block_end_go rest (i + 1) st.1 st.2 dflt

/-- `ContextManager._find_block_end`. -/
def find_block_end (lines : List (List Char)) (start : Nat) : Nat :=
  find_block_end_go (lines.drop start) start 0 false (lines.length - 1)

/-! ## Line-based chunking (`ContextManager._chunk_by_lines`,
context_manager.py:290-332) -/

/-- `lines[i].strip().endswith('}')`. -/
def lineEndsBrace (l : List Char) : Bool :=
  match (strip l).getLast? with
  | some c => c = '}'
  | none => false

/-- Python `lines[i]` with negative-index wrap-around (indices stay in
range on every run considered here). -/
def pyGetLine (lines : List (List Char)) (i : Int) : List Char :=
  if i < 0 then lines.getD ((lines.length : Int) + i).toNat []
  else lines.getD i.toNat []

/-- The `for i in range(end - 1, lo, -1)` snap scan of `_chunk_by_lines`
(context_manager.py:312-315): the first index, counting down from `i`
through `cnt` candidates, whose stripped line ends with `}`. -/
def findSnapDown (lines : List (List Char)) : Int → Nat → Option Int
  | _, 0 => none
  | i, cnt + 1 =>
    if lineEndsBrace (pyGetLine lines i) then some i
    else findSnapDown lines (i - 1) cnt

/-- The `while start < len(lines)` loop of `_chunk_by_lines`, with fuel:
`(emitted chunks, true)` if the loop exited within `fuel` iterations,
`(chunks emitted so far, false)` if not.  Each iteration computes the
window end, snaps it back to a line ending in `}` when one exists in the
upper half of the window, emits the chunk, and restarts at
`end - overlap_lines`. -/
def chunk_by_lines_go (lines : List (List Char)) (header : List Char)
    (lines_per_chunk overlap_lines : Nat) :
    Nat → Int → Nat → List CodeChunk → List CodeChunk × Bool
  | 0, _, _, acc => (acc, false)
  | fuel + 1, start, chunk_id, acc =>
    if start < (lines.length : Int) then
      let stop : Int := min (start + (lines_per_chunk : Int)) (lines.length : Int)
      let lo : Int := max (start + ((lines_per_chunk / 2 : Nat) : Int)) start
      let stop' : Int :=
        match findSnapDown lines (stop - 1) (stop - 1 - lo).toNat with
        | some i => i + 1
        | none => stop
      let chunk_content := joinNl (pySlice lines start stop')
      let c : CodeChunk :=
        { chunk_id := chunk_id
          content := chunk_content
          start_line := start + 1
          end_line := stop'
          chunk_type := "lines"
          context_header := header
          original_content := chunk_content }
      chunk_by_lines_go lines header lines_per_chunk overlap_lines fuel
        (stop' - (overlap_lines : Int)) (chunk_id + 1) (acc ++ [c])
    else (acc, true)

/-- `ContextManager._chunk_by_lines`.  Python computes
`avg_line_length = len(content) / len(lines)` and
`lines_per_chunk = int(chars_per_chunk / avg_line_length)` in floating
point; this is modelled exactly as
`⌊chars_per_chunk * len(lines) / len(content)⌋`, with which it agrees
whenever the true quotient is not within float rounding error of an
integer (as at every input used below).  `header` is
`context.get_context_header()`. -/
def chunk_by_lines (content : List Char) (header : List Char)
    (max_chunk_tokens overlap_lines : Nat) (fuel : Nat) :
    List CodeChunk × Bool :=
  let lines := splitNl content
  let chars_per_chunk := max_chunk_tokens * 4
  let lines_per_chunk := chars_per_chunk * lines.length / content.length
  chunk_by_lines_go lines header lines_per_chunk overlap_lines fuel 0 0 []

/-- The `except` branch of `ContextManager._chunk_by_ast`
(context_manager.py:225-227): on any structural-parse exception the only
action taken is a log warning followed by
`self._chunk_by_lines(content, context)`; no degradation flag of any
kind is recorded. -/
def chunk_by_ast_on_parse_failure (content : List Char) (header : List Char)
    (max_chunk_tokens overlap_lines : Nat) (fuel : Nat) :
    List CodeChunk × Bool :=
  chunk_by_lines content header max_chunk_tokens overlap_lines fuel

/-! ## ValidationGate (`CodeValidator`, validator.py) -/

/-- How the external build/test subprocess call ends: a completed run
with an exit code, a timeout (`subprocess.TimeoutExpired`), or any other
exception raised while invoking it. -/
inductive SubprocOutcome where
  | completed (returncode : Int)
  | timedOut
  | raised
deriving Repr, DecidableEq

/-- `ValidationResult` (validator.py:29-41).  The structured `details`
dict and the exact formatted message text (built by
`_parse_compile_errors` / `_parse_test_failures`, which only inspect the
captured subprocess output) are elided: they never touch the
filesystem. -/
structure ValidationResult where
  is_valid : Bool
  syntax_valid : Bool := true
  compiles : Bool := true
  tests_pass : Bool := true
  error_message : String := ""
deriving Repr, DecidableEq

/-- `CodeValidator.validate_compilation` (validator.py:115-184) as a
state transformer on the target file's on-disk state (`none` = the path
does not exist).  The `finally` block (validator.py:180-184) writes the
snapshot back only when `original_content is not None`, i.e. only when
the file existed before the call; it runs on every control path of the
`try`. -/
def validate_compilation (run_compile : Bool) (fs : Option (List Char))
    (new_code : List Char) (outcome : SubprocOutcome) :
    ValidationResult × Option (List Char) :=
  if run_compile = false then
    ({ is_valid := true, compiles := true }, fs)
  else
    -- store original content if the file exists (validator.py:136-140)
    let original_content : Option (List Char) := fs
    -- try: write new code temporarily (validator.py:143-145)
    let fs1 : Option (List Char) := some new_code
    -- run the subprocess and classify (validator.py:147-179)
    let result : ValidationResult :=
      match outcome with
      | .completed rc =>
        if rc = 0 then { is_valid := true, compiles := true }
        else { is_valid := false, compiles := false,
               error_message := "Compilation failed" }
      | .timedOut =>
        { is_valid := false, compiles := false,
          error_message := "Compilation timed out after 5 minutes" }
      | .raised =>
        { is_valid := false, compiles := false,
          error_message := "Compilation error" }
    -- finally: restore original content when it was snapshotted
    let fs2 : Option (List Char) :=
      match original_content with
      | some c => some c
      | none => fs1
    (result, fs2)

/-- `CodeValidator.validate_tests` (validator.py:186-262): identical
snapshot / write / subprocess / `finally`-restore discipline; the test
command construction from `_find_related_tests` (validator.py:217-225)
only shapes the subprocess invocation, abstracted here by `outcome`. -/
def validate_tests (run_tests : Bool) (fs : Option (List Char))
    (new_code : List Char) (outcome : SubprocOutcome) :
    ValidationResult × Option (List Char) :=
  if run_tests = false then
    ({ is_valid := true, tests_pass := true }, fs)
  else
    let original_content : Option (List Char) := fs
    let fs1 : Option (List Char) := some new_code
    let result : ValidationResult :=
      match outcome with
      | .completed rc =>
        if rc = 0 then { is_valid := true, tests_pass := true }
        else { is_valid := false, tests_pass := false,
               error_message := "Tests failed" }
      | .timedOut =>
        { is_valid := false, tests_pass := false,
          error_message := "Tests timed out after 10 minutes" }
      | .raised =>
        { is_valid := false, tests_pass := false,
          error_message := "Test error" }
    let fs2 : Option (List Char) :=
      match original_content with
      | some c => some c
      | none => fs1
    (result, fs2)

/-! ## Helper lemmas for the merge theorems -/

/-- Skipping chunks without a truthy rewrite leaves the line array
untouched. -/
theorem mergeLoop_of_no_rewrite (cs : List CodeChunk)
    (lines : List (List Char)) (off : Int)
    (h : ∀ c ∈ cs, c.refactored_content = none) :
    mergeLoop cs lines off = lines := by
  induction cs generalizing lines off with
  | nil => rfl
  | cons c cs ih =>
    have hc : c.refactored_content = none := h c (List.mem_cons_self _ _)
    simp only [mergeLoop, hc, truthy]
    exact ih lines off (fun d hd => h d (List.mem_cons_of_mem _ hd))

/-- Replace a `some ""` rewrite by `none` (both are falsy in Python). -/
def normEmptyRewrite (c : CodeChunk) : CodeChunk :=
  if c.refactored_content = some [] then { c with refactored_content := none }
  else c

theorem normEmptyRewrite_start_line (c : CodeChunk) :
    (normEmptyRewrite c).start_line = c.start_line := by
  unfold normEmptyRewrite; split <;> rfl

theorem normEmptyRewrite_of_truthy (c : CodeChunk)
    (h : truthy c.refactored_content = true) : normEmptyRewrite c = c := by
  unfold normEmptyRewrite
  split
  · rename_i he
    rw [he] at h
    simp [truthy] at h
  · rfl

theorem truthy_normEmptyRewrite (c : CodeChunk) :
    truthy (normEmptyRewrite c).refactored_content =
      truthy c.refactored_content := by
  unfold normEmptyRewrite
  split
  · rename_i he
    simp [truthy, he]
  · rfl

theorem mergeLoop_map_normEmptyRewrite (cs : List CodeChunk)
    (lines : List (List Char)) (off : Int) :
    mergeLoop (cs.map normEmptyRewrite) lines off = mergeLoop cs lines off := by
  induction cs generalizing lines off with
  | nil => rfl
  | cons c cs ih =>
    simp only [List.map_cons, mergeLoop, truthy_normEmptyRewrite]
    by_cases h : truthy c.refactored_content
    · rw [normEmptyRewrite_of_truthy c h]
      simp only [h, if_pos]
      exact ih _ _
    · simp only [h]
      exact ih _ _

/-! ## C1 -/

/-- C1: for every call to `validate_compilation` or `validate_tests` on a
path whose file exists before the call, the on-disk content at return
equals the pre-call content, on every control path (stage disabled,
subprocess success, non-zero exit, timeout, or an exception raised while
invoking the subprocess): the `finally` block always restores the
snapshot. -/
theorem validate_restores_existing_file
    (run_compile run_tests : Bool) (pre new_code : List Char)
    (oc ot : SubprocOutcome) :
    (validate_compilation run_compile (some pre) new_code oc).2 = some pre ∧
    (validate_tests run_tests (some pre) new_code ot).2 = some pre := by
  constructor
  · unfold validate_compilation; split <;> rfl
  · unfold validate_tests; split <;> rfl

/-! ## C9 -/

/-- C9 counterexample: with the stage disabled (`run_compile = False` is a
legal configuration, validator.py:128-129) and a non-existent target
path, `validate_compilation` returns immediately: the candidate text is
never written, so it is not on disk when the call returns — the claim's
unconditional "the candidate text is written to that path and is still
present" fails. -/
theorem validate_disabled_stage_writes_nothing :
    (validate_compilation false none ['x'] (.completed 0)).2 = none ∧
    (validate_tests false none ['x'] (.completed 0)).2 = none ∧
    (none : Option (List Char)) ≠ some ['x'] := by
  refine ⟨rfl, rfl, by simp⟩

/-- C9 (amended): when the respective stage is enabled, if the target
file does not exist before the call then the candidate text is written
and is still present on disk at return — the `finally` restore only runs
when the file existed before the call; when the stage is disabled the
filesystem is untouched. -/
theorem validate_missing_file_keeps_candidate
    (new_code : List Char) (oc ot : SubprocOutcome) :
    (validate_compilation true none new_code oc).2 = some new_code ∧
    (validate_tests true none new_code ot).2 = some new_code ∧
    (validate_compilation false none new_code oc).2 = none ∧
    (validate_tests false none new_code ot).2 = none := by
  refine ⟨rfl, rfl, rfl, rfl⟩

/-! ## C10 -/

/-- C10: a chunk whose rewritten content is the empty string is treated
exactly like a chunk with no rewrite set: for a single whole-file chunk
with empty rewritten content the chunk's original content is returned,
and in general replacing every `some ""` rewrite by `none` leaves the
merge result unchanged. -/
theorem merge_empty_rewrite_like_none :
    (∀ (ctx : FileContext) (c : CodeChunk), ctx.chunks = [c] →
      c.chunk_type = "full_file" → c.refactored_content = some [] →
      merge_refactored_chunks ctx = c.content) ∧
    (∀ ctx : FileContext,
      merge_refactored_chunks
          { ctx with chunks := ctx.chunks.map normEmptyRewrite } =
        merge_refactored_chunks ctx) := by
  constructor
  · intro ctx c hc htype href
    unfold merge_refactored_chunks
    rw [if_pos]
    · simp only [hc, List.headD, href]
      rfl
    · simp [hc, htype]
  · intro ctx
    unfold merge_refactored_chunks
    have hlen : (ctx.chunks.map normEmptyRewrite).length = ctx.chunks.length :=
      List.length_map _ _
    by_cases h : ctx.chunks.length = 1 ∧
        (ctx.chunks.headD default).chunk_type = "full_file"
    · rcases List.length_eq_one.1 h.1 with ⟨c, hc⟩
      have hcond : (ctx.chunks.map normEmptyRewrite).length = 1 ∧
          ((ctx.chunks.map normEmptyRewrite).headD default).chunk_type =
            "full_file" := by
        refine ⟨by simp [hlen, h.1], ?_⟩
        have := h.2
        rw [hc] at this ⊢
        simp only [List.map_cons, List.map_nil, List.headD] at this ⊢
        unfold normEmptyRewrite
        split <;> simp_all
      rw [if_pos h, if_pos hcond]
      rw [hc]
      simp only [List.map_cons, List.map_nil, List.headD]
      rcases href : c.refactored_content with _ | r
      · simp [normEmptyRewrite, href]
      · by_cases hr : r = []
        · subst hr
          simp [normEmptyRewrite, href]
        · have hne : c.refactored_content ≠ some [] := by
            rw [href]; simpa using hr
          simp [normEmptyRewrite, href, hne, hr]
    · have hcond : ¬((ctx.chunks.map normEmptyRewrite).length = 1 ∧
          ((ctx.chunks.map normEmptyRewrite).headD default).chunk_type =
            "full_file") := by
        intro hc
        apply h
        refine ⟨by have := hc.1; rwa [hlen] at this, ?_⟩
        rcases List.length_eq_one.1 (hlen ▸ hc.1) with ⟨c, hcc⟩
        rw [hcc] at hc ⊢
        simp only [List.map_cons, List.map_nil, List.headD] at hc
        have := hc.2
        unfold normEmptyRewrite at this
        split at this <;> simp_all
      rw [if_neg h, if_neg hcond]
      have hmap : List.insertionSort
            (fun a b : CodeChunk => a.start_line ≤ b.start_line)
            (ctx.chunks.map normEmptyRewrite)
          = (List.insertionSort
              (fun a b : CodeChunk => a.start_line ≤ b.start_line)
              ctx.chunks).map normEmptyRewrite := by
        symm
        apply List.map_insertionSort
        intro a _ b _
        rw [normEmptyRewrite_start_line, normEmptyRewrite_start_line]
      simp only [hmap, mergeLoop_map_normEmptyRewrite]

/-- C10 witness context: a single whole-file chunk whose rewritten
content is the empty string. -/
def ctxC10 : FileContext :=
  { chunks :=
      [ { chunk_id := 0, content := "m".toList, start_line := 1,
          end_line := 1, chunk_type := "full_file",
          refactored_content := some [] } ]
    original_content := "m".toList }

/-- C10 witness: the empty rewrite on a whole-file chunk yields the
chunk's original content. -/
theorem merge_empty_rewrite_like_none_witness :
    merge_refactored_chunks ctxC10 = "m".toList :=
  merge_empty_rewrite_like_none.1 ctxC10
    { chunk_id := 0, content := "m".toList, start_line := 1,
      end_line := 1, chunk_type := "full_file",
      refactored_content := some [] } rfl rfl rfl

/-! ## C3 -/

/-- C3: for every `FileContext` in which no chunk has a rewrite set (and
whose single whole-file chunk, when that path applies, indeed snapshots
the original content, as `process_file` guarantees),
`merge_refactored_chunks` returns the original file text byte-for-byte;
in particular, any text chunked in whole-file mode with no rewrite
applied merges back to itself. -/
theorem merge_no_rewrite_roundtrip :
    (∀ ctx : FileContext,
      (∀ c ∈ ctx.chunks, c.refactored_content = none) →
      (ctx.chunks.length = 1 →
        (ctx.chunks.headD default).chunk_type = "full_file" →
        (ctx.chunks.headD default).content = ctx.original_content) →
      merge_refactored_chunks ctx = ctx.original_content) ∧
    (∀ t : List Char,
      merge_refactored_chunks (process_file_small t) = t) := by
  have main : ∀ ctx : FileContext,
      (∀ c ∈ ctx.chunks, c.refactored_content = none) →
      (ctx.chunks.length = 1 →
        (ctx.chunks.headD default).chunk_type = "full_file" →
        (ctx.chunks.headD default).content = ctx.original_content) →
      merge_refactored_chunks ctx = ctx.original_content := by
    intro ctx hnone hwhole
    unfold merge_refactored_chunks
    by_cases h : ctx.chunks.length = 1 ∧
        (ctx.chunks.headD default).chunk_type = "full_file"
    · rcases List.length_eq_one.1 h.1 with ⟨c, hc⟩
      rw [if_pos h]
      have href : c.refactored_content = none := hnone c (by simp [hc])
      have hcontent := hwhole h.1 h.2
      rw [hc] at hcontent
      simp only [List.headD] at hcontent
      rw [hc]
      simp only [List.headD, href]
      exact hcontent
    · rw [if_neg h]
      have hsorted : ∀ c ∈ List.insertionSort
          (fun a b : CodeChunk => a.start_line ≤ b.start_line) ctx.chunks,
          c.refactored_content = none := by
        intro c hcmem
        exact hnone c ((List.mem_insertionSort _).1 hcmem)
      show joinNl (mergeLoop (List.insertionSort
          (fun a b : CodeChunk => a.start_line ≤ b.start_line) ctx.chunks)
          (splitNl ctx.original_content) 0) = ctx.original_content
      rw [mergeLoop_of_no_rewrite _ _ _ hsorted, joinNl_splitNl]
  refine ⟨main, ?_⟩
  intro t
  apply main
  · intro c hcmem
    simp only [process_file_small, List.mem_singleton] at hcmem
    rw [hcmem]
  · intro _ _
    rfl

/-- C3 witness context: two chunks, no rewrites. -/
def ctxC3 : FileContext :=
  { chunks :=
      [ { chunk_id := 0, content := ['a'], start_line := 1, end_line := 1,
          chunk_type := "lines" }
      , { chunk_id := 1, content := ['b'], start_line := 2, end_line := 2,
          chunk_type := "lines" } ]
    original_content := ['a', '\n', 'b'] }

/-- C3 witness: the round-trip theorem at a concrete rewrite-free
context. -/
theorem merge_no_rewrite_roundtrip_witness :
    merge_refactored_chunks ctxC3 = ['a', '\n', 'b'] :=
  merge_no_rewrite_roundtrip.1 ctxC3 (by decide) (by decide)

/-! ## C5 -/

/-- The net line-count change the merge applies for one chunk: zero for
a chunk without a truthy rewrite. -/
def netDelta (c : CodeChunk) : Int :=
  if truthy c.refactored_content then
    ((splitNl (c.refactored_content.getD [])).length : Int) -
      ((splitNl c.content).length : Int)
  else 0

/-- A `FileContext` whose chunks' replace ranges overlap (1-3 and 2-4),
each with a one-line rewrite. -/
def ctxC5 : FileContext :=
  { chunks :=
      [ { chunk_id := 0, content := "a\nb\nc".toList, start_line := 1,
          end_line := 3, chunk_type := "lines",
          refactored_content := some "X".toList }
      , { chunk_id := 1, content := "b\nc\nd".toList, start_line := 2,
          end_line := 4, chunk_type := "lines",
          refactored_content := some "Y".toList } ]
    original_content := "a\nb\nc\nd".toList }

/-- A second overlap-violating `FileContext` (ranges 1-2 and 2-3). -/
def ctxC5b : FileContext :=
  { chunks :=
      [ { chunk_id := 0, content := "p\nq".toList, start_line := 1,
          end_line := 2, chunk_type := "lines",
          refactored_content := some "A".toList }
      , { chunk_id := 1, content := "q\nr".toList, start_line := 2,
          end_line := 3, chunk_type := "lines",
          refactored_content := some "B".toList } ]
    original_content := "p\nq\nr".toList }

/-- C5 counterexample: `merge_refactored_chunks` performs no validation
of the replace-range invariant.  On `ctxC5`, whose ranges overlap
(violating non-overlap, third conjunct), it does not fail loudly: it
returns merged text (first conjunct), text that moreover silently
violates the offset-accounting identity (second conjunct: 2 lines
instead of 4 + (−4) = 0). -/
theorem merge_overlapping_spans_returns_text :
    merge_refactored_chunks ctxC5 = "X\nY".toList ∧
    ((splitNl (merge_refactored_chunks ctxC5)).length : Int) ≠
      ((splitNl ctxC5.original_content).length : Int) +
        (ctxC5.chunks.map netDelta).sum ∧
    ¬ List.Pairwise (fun a b : CodeChunk => a.end_line < b.start_line)
      ctxC5.chunks := by
  refine ⟨by decide, by decide, by decide⟩

/-- C5 (amended): `merge_refactored_chunks` never raises on a
replace-range-invariant violation; it sorts by `start_line` and splices
each truthy chunk in turn, so on overlapping ranges the later splice
silently consumes the earlier chunk's replacement: on `ctxC5b` the
second chunk's one-line rewrite lands on top of the first one's,
yielding just `"B"`. -/
theorem merge_no_invariant_validation :
    ¬ List.Pairwise (fun a b : CodeChunk => a.end_line < b.start_line)
      ctxC5b.chunks ∧
    merge_refactored_chunks ctxC5b = "B".toList := by
  refine ⟨by decide, by decide⟩

/-! ## C6 -/

theorem removeStringsGo_false_no_quote (l : List Char) (p : List Char)
    (h : '"' ∉ l) : removeStringsGo false p l = l := by
  induction l generalizing p with
  | nil => rfl
  | cons c rest ih =>
    have hc : c ≠ '"' := fun hq => h (by simp [hq])
    have hrest : '"' ∉ rest := fun hq => h (List.mem_cons_of_mem _ hq)
    simp only [removeStringsGo, if_neg hc, ih p hrest]

theorem removeStringsGo_false_append (u : List Char) (p v : List Char)
    (h : '"' ∉ u) :
    removeStringsGo false p (u ++ v) = u ++ removeStringsGo false p v := by
  induction u generalizing p with
  | nil => rfl
  | cons c rest ih =>
    have hc : c ≠ '"' := fun hq => h (by simp [hq])
    have hrest : '"' ∉ rest := fun hq => h (List.mem_cons_of_mem _ hq)
    simp only [List.cons_append, removeStringsGo, List.append_eq, if_neg hc,
      ih p hrest]

theorem removeStringsGo_true_closing (w : List Char) (p v : List Char)
    (h : '"' ∉ w) :
    removeStringsGo true p (w ++ '"' :: v) = removeStringsGo false [] v := by
  induction w generalizing p with
  | nil => simp [removeStringsGo]
  | cons c rest ih =>
    have hc : c ≠ '"' := fun hq => h (by simp [hq])
    have hrest : '"' ∉ rest := fun hq => h (List.mem_cons_of_mem _ hq)
    simp only [List.cons_append, removeStringsGo, List.append_eq, if_neg hc,
      ih (c :: p) hrest]

theorem removeStrings_no_quote (l : List Char) (h : '"' ∉ l) :
    removeStrings l = l :=
  removeStringsGo_false_no_quote l [] h

theorem removeStrings_append (u v : List Char) (h : '"' ∉ u) :
    removeStrings (u ++ v) = u ++ removeStrings v :=
  removeStringsGo_false_append u [] v h

theorem removeStrings_drops_literal (u w v : List Char)
    (hu : '"' ∉ u) (hw : '"' ∉ w) :
    removeStrings (u ++ ('"' :: (w ++ '"' :: v))) = u ++ removeStrings v := by
  unfold removeStrings
  rw [removeStringsGo_false_append u [] _ hu]
  simp only [removeStringsGo, if_pos rfl]
  rw [removeStringsGo_true_closing w _ v hw]
  simp

theorem removeLineComment_indep :
    ∀ p s : List Char,
      removeLineComment (p ++ '/' :: '/' :: s) =
        removeLineComment (p ++ ['/', '/'])
  | [], s => by simp [removeLineComment]
  | [c], s => by
    by_cases hc : c = '/'
    · simp [removeLineComment, hc]
    · simp [removeLineComment, hc]
  | c1 :: c2 :: p', s => by
    have ih := removeLineComment_indep (c2 :: p') s
    by_cases h : c1 = '/' ∧ c2 = '/'
    · simp [removeLineComment, h]
    · simp only [List.cons_append, removeLineComment, List.append_eq, if_neg h]
      rw [show c2 :: (p' ++ '/' :: '/' :: s) = (c2 :: p') ++ '/' :: '/' :: s
            from rfl,
        show c2 :: (p' ++ ['/', '/']) = (c2 :: p') ++ ['/', '/'] from rfl, ih]

/-- The lines of `exC6a`: a class opener, a block comment containing a
closing brace, the real closing brace. -/
def exC6a : List (List Char) :=
  ["class A \x7b".toList, "/* \x7d */".toList, "\x7d".toList]

/-- `exC6a` with the brace removed from the block comment. -/
def exC6b : List (List Char) :=
  ["class A \x7b".toList, "/*  */".toList, "\x7d".toList]

/-- C6 counterexample: `_find_block_end` strips only double-quoted
string literals and `//` line comments before counting braces, it has no
"inside block comment" state: the `\x7d` inside `/* \x7d */` on line 1 of
`exC6a` IS counted, closing the block early at index 1, whereas with that
brace removed (`exC6b`, identical otherwise) the block ends at index 2 —
so braces inside block comments do influence where the block closes. -/
theorem find_block_end_counts_comment_brace :
    find_block_end exC6a 0 = 1 ∧ find_block_end exC6b 0 = 2 := by
  refine ⟨by decide, by decide⟩

theorem find_block_end_go_congr :
    ∀ {l1 l2 : List (List Char)},
      List.Forall₂ (fun a b => clean_line a = clean_line b) l1 l2 →
      ∀ (i : Nat) (cnt : Int) (ib : Bool) (dflt : Nat),
      find_block_end_go l1 i cnt ib dflt = find_block_end_go l2 i cnt ib dflt := by
  intro l1 l2 h
  induction h with
  | nil => intro i cnt ib dflt; rfl
  | cons hab _ ih =>
    intro i cnt ib dflt
    simp only [find_block_end_go, hab]
    split
    · rfl
    · exact ih _ _ _ _

/-- C6 (amended): the brace scanner never counts braces inside a
single-line, escape-free, properly closed string literal (deleting the
literal entirely, first conjunct) and never counts anything after a `//`
on a quote-free line (second conjunct); consequently `_find_block_end`
is invariant under rewriting such protected text (third conjunct).
Braces inside block comments, however, ARE counted (see the
counterexample). -/
theorem clean_line_skips_strings_and_line_comments :
    (∀ u w v : List Char, '"' ∉ u → '"' ∉ w →
      clean_line (u ++ ('"' :: (w ++ '"' :: v))) = clean_line (u ++ v)) ∧
    (∀ p s1 s2 : List Char, '"' ∉ p → '"' ∉ s1 → '"' ∉ s2 →
      clean_line (p ++ '/' :: '/' :: s1) = clean_line (p ++ '/' :: '/' :: s2)) ∧
    (∀ (l1 l2 : List (List Char)) (start : Nat),
      List.Forall₂ (fun a b => clean_line a = clean_line b) l1 l2 →
      find_block_end l1 start = find_block_end l2 start) := by
  refine ⟨?_, ?_, ?_⟩
  · intro u w v hu hw
    unfold clean_line
    rw [removeStrings_drops_literal u w v hu hw, removeStrings_append u v hu]
  · intro p s1 s2 hp h1 h2
    have hq1 : '"' ∉ p ++ '/' :: '/' :: s1 := by
      intro hmem
      rcases List.mem_append.1 hmem with h | h
      · exact hp h
      · rcases List.mem_cons.1 h with h | h
        · exact absurd h.symm (by decide)
        · rcases List.mem_cons.1 h with h | h
          · exact absurd h.symm (by decide)
          · exact h1 h
    have hq2 : '"' ∉ p ++ '/' :: '/' :: s2 := by
      intro hmem
      rcases List.mem_append.1 hmem with h | h
      · exact hp h
      · rcases List.mem_cons.1 h with h | h
        · exact absurd h.symm (by decide)
        · rcases List.mem_cons.1 h with h | h
          · exact absurd h.symm (by decide)
          · exact h2 h
    unfold clean_line
    rw [removeStrings_no_quote _ hq1, removeStrings_no_quote _ hq2,
      removeLineComment_indep p s1, removeLineComment_indep p s2]
  · intro l1 l2 start h
    unfold find_block_end
    rw [find_block_end_go_congr (List.forall₂_drop start h) start 0 false,
      h.length_eq]

/-- C6 amended witness: braces after `//` on a quote-free line are never
counted. -/
theorem clean_line_skips_witness :
    clean_line ("int x; ".toList ++ '/' :: '/' :: "\x7d\x7d".toList) =
      clean_line ("int x; ".toList ++ '/' :: '/' :: " ".toList) :=
  clean_line_skips_strings_and_line_comments.2.1
    ("int x; ".toList) ("\x7d\x7d".toList) (" ".toList)
    (by decide) (by decide) (by decide)

/-! ## C7 -/

/-- A file with two package declarations before the first type
declaration. -/
def exC7 : List Char := "package a;\npackage b;\nclass C".toList

/-- C7 counterexample: `_parse_header` assigns `context.package` on
EVERY matching package line before the stop line (context_manager.py:169
overwrites), so on `exC7` it records the last declaration `b`, not the
first `a` as the claim states. -/
theorem parse_header_records_last_package :
    (parse_header exC7).package = "b".toList ∧
    (parse_header exC7).package ≠ "a".toList := by
  refine ⟨by decide, by decide⟩

/-- Specification-side view of one line: the package name it contributes
(only `package `-prefixed lines whose regex matches). -/
def packageOf (line : List Char) : Option (List Char) :=
  let stripped := strip line
  if ("package ".toList).isPrefixOf stripped then matchPackage stripped
  else none

/-- Specification-side view of one line: the import entry it contributes
(the stripped line itself). -/
def importOf (line : List Char) : Option (List Char) :=
  let stripped := strip line
  if ("package ".toList).isPrefixOf stripped then none
  else if ("import ".toList).isPrefixOf stripped then some stripped
  else none

/-- Specification-side view: a line at which `_parse_header` stops
scanning (a non-package, non-import line containing `class `,
`interface ` or `enum `). -/
def stopsHeaderScan (line : List Char) : Bool :=
  !("package ".toList).isPrefixOf (strip line) &&
    (!("import ".toList).isPrefixOf (strip line) &&
      (containsSub ("class ".toList) (strip line) ||
       containsSub ("interface ".toList) (strip line) ||
       containsSub ("enum ".toList) (strip line)))

theorem parse_header_go_spec (lines : List (List Char)) :
    ∀ ctx : Header,
    (∀ l ∈ lines, stopsHeaderScan l = false) →
    parse_header_go lines ctx =
      ⟨(lines.filterMap packageOf).getLastD ctx.package,
       ctx.imports ++ lines.filterMap importOf⟩ := by
  induction lines with
  | nil => intro ctx _; simp [parse_header_go]
  | cons line rest ih =>
    intro ctx h
    have hline := h line (List.mem_cons_self _ _)
    have hrest : ∀ l ∈ rest, stopsHeaderScan l = false :=
      fun l hl => h l (List.mem_cons_of_mem _ hl)
    simp only [parse_header_go, List.filterMap_cons]
    by_cases hpkg : ("package ".toList).isPrefixOf (strip line) = true
    · rw [if_pos hpkg]
      have hpof : packageOf line = matchPackage (strip line) := by
        unfold packageOf
        rw [if_pos hpkg]
      have hiof : importOf line = none := by
        unfold importOf
        rw [if_pos hpkg]
      rw [hpof, hiof]
      rcases hm : matchPackage (strip line) with _ | name
      · rw [ih ctx hrest]
      · rw [ih { ctx with package := name } hrest, List.getLastD_cons]
    · rw [if_neg hpkg]
      have hpof : packageOf line = none := by
        unfold packageOf
        rw [if_neg hpkg]
      rw [hpof]
      by_cases himp : ("import ".toList).isPrefixOf (strip line) = true
      · rw [if_pos himp]
        have hiof : importOf line = some (strip line) := by
          unfold importOf
          rw [if_neg hpkg, if_pos himp]
        rw [hiof, ih { ctx with imports := ctx.imports ++ [strip line] } hrest]
        simp
      · rw [if_neg himp]
        have hstop : (containsSub ("class ".toList) (strip line) ||
            containsSub ("interface ".toList) (strip line) ||
            containsSub ("enum ".toList) (strip line)) = false := by
          unfold stopsHeaderScan at hline
          rw [Bool.and_eq_false_iff] at hline
          rcases hline with h1 | hline
          · exact absurd (by simpa using h1) hpkg
          · rw [Bool.and_eq_false_iff] at hline
            rcases hline with h1 | hline
            · exact absurd (by simpa using h1) himp
            · simpa [Bool.or_assoc] using hline
        rw [if_neg (by simp only [hstop]; exact Bool.false_ne_true)]
        have hiof : importOf line = none := by
          unfold importOf
          rw [if_neg hpkg, if_neg himp]
        rw [hiof, ih ctx hrest]

theorem parse_header_go_stop (pre : List (List Char)) :
    ∀ (ctx : Header) (b : List Char) (post : List (List Char)),
    stopsHeaderScan b = true →
    parse_header_go (pre ++ b :: post) ctx = parse_header_go pre ctx := by
  induction pre with
  | nil =>
    intro ctx b post hb
    unfold stopsHeaderScan at hb
    show parse_header_go (b :: post) ctx = ctx
    simp only [parse_header_go]
    by_cases hpkg : ("package ".toList).isPrefixOf (strip b) = true
    · rw [hpkg] at hb
      simp at hb
    · rw [if_neg hpkg]
      by_cases himp : ("import ".toList).isPrefixOf (strip b) = true
      · rw [himp] at hb
        simp at hb
      · rw [if_neg himp]
        have hpkgf : ("package ".toList).isPrefixOf (strip b) = false := by
          revert hpkg
          cases ("package ".toList).isPrefixOf (strip b) <;> simp
        have himpf : ("import ".toList).isPrefixOf (strip b) = false := by
          revert himp
          cases ("import ".toList).isPrefixOf (strip b) <;> simp
        rw [hpkgf, himpf] at hb
        simp only [Bool.not_false, Bool.true_and] at hb
        rw [if_pos hb]
  | cons line pre' ih =>
    intro ctx b post hb
    simp only [List.cons_append, parse_header_go, List.append_eq]
    by_cases hpkg : ("package ".toList).isPrefixOf (strip line) = true
    · rw [if_pos hpkg, if_pos hpkg, ih _ b post hb]
    · rw [if_neg hpkg, if_neg hpkg]
      by_cases himp : ("import ".toList).isPrefixOf (strip line) = true
      · rw [if_pos himp, if_pos himp, ih _ b post hb]
      · rw [if_neg himp, if_neg himp]
        by_cases hcl : (containsSub ("class ".toList) (strip line) ||
            containsSub ("interface ".toList) (strip line) ||
            containsSub ("enum ".toList) (strip line)) = true
        · rw [if_pos hcl, if_pos hcl]
        · rw [if_neg hcl, if_neg hcl, ih _ b post hb]

/-- C7 (amended): `_parse_header` records the LAST (not first) matching
package declaration seen before the first type-declaration line, and
every import line before that point, in order, without deduplication;
scanning stops at the first line containing `class `, `interface ` or
`enum ` (so later import-like lines are never recorded), and when no
such line exists the whole file is scanned the same way; the parser is a
total function. -/
theorem parse_header_spec (pre post : List (List Char)) (b : List Char)
    (hpre : ∀ l ∈ pre, stopsHeaderScan l = false)
    (hb : stopsHeaderScan b = true) :
    parse_header_go (pre ++ b :: post) ⟨[], []⟩ =
      ⟨(pre.filterMap packageOf).getLastD [], pre.filterMap importOf⟩ ∧
    parse_header_go pre ⟨[], []⟩ =
      ⟨(pre.filterMap packageOf).getLastD [], pre.filterMap importOf⟩ := by
  have h2 := parse_header_go_spec pre ⟨[], []⟩ hpre
  simp only [List.nil_append] at h2
  exact ⟨by rw [parse_header_go_stop pre ⟨[], []⟩ b post hb]; exact h2, h2⟩

/-- C7 amended witness: duplicate imports preserved in order, last
package wins, the post-declaration import never recorded. -/
theorem parse_header_spec_witness :
    parse_header_go
        (["package a;".toList, "import x;".toList, "import x;".toList]
          ++ "class C".toList :: ["import y;".toList]) ⟨[], []⟩ =
      ⟨"a".toList, ["import x;".toList, "import x;".toList]⟩ :=
  (parse_header_spec
    ["package a;".toList, "import x;".toList, "import x;".toList]
    ["import y;".toList] ("class C".toList) (by decide) (by decide)).1

/-! ## C4 and C8 -/

/-- A 9-character line with no closing brace. -/
def exLine : List Char := List.replicate 9 'a'

/-- A 10-line, 99-character file (no braces), used with configuration
`max_chunk_tokens = 10`, `overlap_lines = 2` (so
`lines_per_chunk = int(40 / 9.9) = 4`). -/
def exContent : List Char := joinNl (List.replicate 10 exLine)

/-- C4: evaluating `_chunk_by_lines` at the failing input.  With
`lines_per_chunk = 4` and `overlap_lines = 2`, each window restarts at
`end - overlap_lines`, so consecutive emitted chunks overlap by two
lines: the replace ranges are (1,4), (3,6), (5,8), (7,10), (9,10), ... —
not pairwise non-overlapping, refuting the span invariant. -/
theorem chunk_by_lines_emits_overlapping_spans :
    ((chunk_by_lines exContent [] 10 2 5).1.map
        (fun c => (c.start_line, c.end_line))) =
      [(1, 4), (3, 6), (5, 8), (7, 10), (9, 10)] ∧
    ¬ List.Pairwise (fun a b : CodeChunk => a.end_line < b.start_line)
        (chunk_by_lines exContent [] 10 2 5).1 := by
  refine ⟨by decide, by decide⟩

theorem chunk_go_step8 (fuel : Nat) (cid : Nat) (acc : List CodeChunk) :
    chunk_by_lines_go (splitNl exContent) [] 4 2 (fuel + 1) 8 cid acc =
      chunk_by_lines_go (splitNl exContent) [] 4 2 fuel 8 (cid + 1)
        (acc ++ [{ chunk_id := cid
                   content := joinNl (pySlice (splitNl exContent) 8 10)
                   start_line := 9
                   end_line := 10
                   chunk_type := "lines"
                   context_header := []
                   original_content :=
                     joinNl (pySlice (splitNl exContent) 8 10) }]) := rfl

theorem chunk_go_stuck8 :
    ∀ (fuel : Nat) (cid : Nat) (acc : List CodeChunk),
      (chunk_by_lines_go (splitNl exContent) [] 4 2 fuel 8 cid acc).2 =
        false := by
  intro fuel
  induction fuel with
  | zero => intro cid acc; rfl
  | succ fuel ih =>
    intro cid acc
    rw [chunk_go_step8 fuel cid acc]
    exact ih _ _

theorem chunk_go_stuck6 (fuel : Nat) (cid : Nat) (acc : List CodeChunk) :
    (chunk_by_lines_go (splitNl exContent) [] 4 2 fuel 6 cid acc).2 =
      false := by
  cases fuel with
  | zero => rfl
  | succ fuel =>
    rw [show chunk_by_lines_go (splitNl exContent) [] 4 2 (fuel + 1) 6 cid acc
        = chunk_by_lines_go (splitNl exContent) [] 4 2 fuel 8 (cid + 1)
            (acc ++ [{ chunk_id := cid
                       content := joinNl (pySlice (splitNl exContent) 6 10)
                       start_line := 7
                       end_line := 10
                       chunk_type := "lines"
                       context_header := []
                       original_content :=
                         joinNl (pySlice (splitNl exContent) 6 10) }])
        from rfl]
    exact chunk_go_stuck8 fuel _ _

theorem chunk_go_stuck4 (fuel : Nat) (cid : Nat) (acc : List CodeChunk) :
    (chunk_by_lines_go (splitNl exContent) [] 4 2 fuel 4 cid acc).2 =
      false := by
  cases fuel with
  | zero => rfl
  | succ fuel =>
    rw [show chunk_by_lines_go (splitNl exContent) [] 4 2 (fuel + 1) 4 cid acc
        = chunk_by_lines_go (splitNl exContent) [] 4 2 fuel 6 (cid + 1)
            (acc ++ [{ chunk_id := cid
                       content := joinNl (pySlice (splitNl exContent) 4 8)
                       start_line := 5
                       end_line := 8
                       chunk_type := "lines"
                       context_header := []
                       original_content :=
                         joinNl (pySlice (splitNl exContent) 4 8) }])
        from rfl]
    exact chunk_go_stuck6 fuel _ _

theorem chunk_go_stuck2 (fuel : Nat) (cid : Nat) (acc : List CodeChunk) :
    (chunk_by_lines_go (splitNl exContent) [] 4 2 fuel 2 cid acc).2 =
      false := by
  cases fuel with
  | zero => rfl
  | succ fuel =>
    rw [show chunk_by_lines_go (splitNl exContent) [] 4 2 (fuel + 1) 2 cid acc
        = chunk_by_lines_go (splitNl exContent) [] 4 2 fuel 4 (cid + 1)
            (acc ++ [{ chunk_id := cid
                       content := joinNl (pySlice (splitNl exContent) 2 6)
                       start_line := 3
                       end_line := 6
                       chunk_type := "lines"
                       context_header := []
                       original_content :=
                         joinNl (pySlice (splitNl exContent) 2 6) }])
        from rfl]
    exact chunk_go_stuck4 fuel _ _

theorem chunk_go_stuck0 (fuel : Nat) (cid : Nat) (acc : List CodeChunk) :
    (chunk_by_lines_go (splitNl exContent) [] 4 2 fuel 0 cid acc).2 =
      false := by
  cases fuel with
  | zero => rfl
  | succ fuel =>
    rw [show chunk_by_lines_go (splitNl exContent) [] 4 2 (fuel + 1) 0 cid acc
        = chunk_by_lines_go (splitNl exContent) [] 4 2 fuel 2 (cid + 1)
            (acc ++ [{ chunk_id := cid
                       content := joinNl (pySlice (splitNl exContent) 0 4)
                       start_line := 1
                       end_line := 4
                       chunk_type := "lines"
                       context_header := []
                       original_content :=
                         joinNl (pySlice (splitNl exContent) 0 4) }])
        from rfl]
    exact chunk_go_stuck2 fuel _ _

/-- C8: when the structural parse fails, `_chunk_by_ast` falls back to
`_chunk_by_lines`, but with a positive `overlap_lines` (default 20, here
2) that loop can never exit: the restart position `end - overlap_lines`
stays strictly below `len(lines)`, so for EVERY iteration bound the loop
is still running — no chunk list is ever returned to the caller (and no
degradation flag exists anywhere in the code, only a log line). -/
theorem chunk_fallback_never_terminates (fuel : Nat) :
    (chunk_by_ast_on_parse_failure exContent [] 10 2 fuel).2 = false := by
  show (chunk_by_lines_go (splitNl exContent) [] 4 2 fuel 0 0 []).2 = false
  exact chunk_go_stuck0 fuel 0 []

/-! ## C2: offset correctness and frame of `merge_refactored_chunks` -/

/-- Well-formedness of a (truthy) chunk list against the original line
array: each chunk's 1-based replace range starts strictly after `pos`
(the last consumed line), is non-empty, ends within the file (`tot`
lines), and the next chunk starts after it. -/
def ChunksWF : List CodeChunk → Int → Int → Prop
  | [], _, _ => True
  | c :: cs, pos, tot =>
    pos < c.start_line ∧ c.start_line ≤ c.end_line ∧ c.end_line ≤ tot ∧
    ChunksWF cs c.end_line tot

/-- Specification-side merge of rewritten chunks: keep the gap before
each chunk, splice in its rewritten lines, continue after its range.
`pos` is the number of original lines already consumed. -/
def applyChunks : List CodeChunk → List (List Char) → Int → List (List Char)
  | [], rest, _ => rest
  | c :: cs, rest, pos =>
    rest.take (c.start_line - 1 - pos).toNat
      ++ splitNl (c.refactored_content.getD [])
      ++ applyChunks cs (rest.drop (c.end_line - pos).toNat) c.end_line

/-- The net line-count change of one chunk measured against its replace
range (used for well-formed chunks, where `content` spans the range). -/
def spanDelta (c : CodeChunk) : Int :=
  ((splitNl (c.refactored_content.getD [])).length : Int) -
    (c.end_line - c.start_line + 1)

/-- The accumulated line shift at original line `j`: the sum of the net
deltas of all chunks that end strictly before `j`. -/
def shiftBefore (cs : List CodeChunk) (j : Int) : Int :=
  ((cs.filter (fun c => decide (c.end_line < j))).map netDelta).sum

theorem spliceAssign_eq (lines : List (List Char)) (a b : Int)
    (x : List (List Char)) (ha : 0 ≤ a) (hab : a ≤ b)
    (hb : b ≤ (lines.length : Int)) :
    spliceAssign lines a b x =
      lines.take a.toNat ++ x ++ lines.drop b.toNat := by
  unfold spliceAssign pyIndex
  rw [if_neg (by omega), if_neg (by omega)]
  have h1 : min a.toNat lines.length = a.toNat := by omega
  have h2 : min b.toNat lines.length = b.toNat := by omega
  have h3 : max a.toNat b.toNat = b.toNat := by omega
  simp only [h1, h2, h3]

theorem mergeLoop_eq_applyChunks :
    ∀ (cs : List CodeChunk) (pre rest : List (List Char)) (pos : Int),
      0 ≤ pos →
      ChunksWF (cs.filter (fun c => truthy c.refactored_content)) pos
        (pos + rest.length) →
      (∀ c ∈ cs, truthy c.refactored_content = true →
        ((splitNl c.content).length : Int) = c.end_line - c.start_line + 1) →
      mergeLoop cs (pre ++ rest) ((pre.length : Int) - pos) =
        pre ++ applyChunks
          (cs.filter (fun c => truthy c.refactored_content)) rest pos := by
  intro cs
  induction cs with
  | nil => intro pre rest pos _ _ _; rfl
  | cons c cs ih =>
    intro pre rest pos hpos hwf hlen
    by_cases ht : truthy c.refactored_content = true
    · rw [List.filter_cons_of_pos (by simpa using ht)] at hwf ⊢
      rcases hwf with ⟨h1, h2, h3, h4⟩
      have hol : ((splitNl c.content).length : Int) =
          c.end_line - c.start_line + 1 :=
        hlen c (List.mem_cons_self _ _) ht
      simp only [mergeLoop, ht, if_pos]
      have hsplice : spliceAssign (pre ++ rest)
            (c.start_line - 1 + ((pre.length : Int) - pos))
            (c.end_line - 1 + ((pre.length : Int) - pos) + 1)
            (splitNl (c.refactored_content.getD []))
          = pre ++ (rest.take (c.start_line - 1 - pos).toNat
              ++ splitNl (c.refactored_content.getD [])
              ++ rest.drop (c.end_line - pos).toNat) := by
        rw [spliceAssign_eq _ _ _ _ (by omega) (by omega)
          (by simp only [List.length_append]; push_cast; omega)]
        have hta : (c.start_line - 1 + ((pre.length : Int) - pos)).toNat =
            pre.length + (c.start_line - 1 - pos).toNat := by omega
        have htb : (c.end_line - 1 + ((pre.length : Int) - pos) + 1).toNat =
            pre.length + (c.end_line - pos).toNat := by omega
        rw [hta, htb, List.take_append_eq_append_take,
          List.drop_append_eq_append_drop]
        rw [List.take_all_of_le (by omega), List.drop_eq_nil_of_le (by omega)]
        have hna : pre.length + (c.start_line - 1 - pos).toNat - pre.length =
            (c.start_line - 1 - pos).toNat := by omega
        have hnb : pre.length + (c.end_line - pos).toNat - pre.length =
            (c.end_line - pos).toNat := by omega
        rw [hna, hnb]
        simp [List.append_assoc]
      rw [hsplice]
      have hrw : pre ++ (rest.take (c.start_line - 1 - pos).toNat
            ++ splitNl (c.refactored_content.getD [])
            ++ rest.drop (c.end_line - pos).toNat)
          = (pre ++ rest.take (c.start_line - 1 - pos).toNat
              ++ splitNl (c.refactored_content.getD []))
            ++ rest.drop (c.end_line - pos).toNat := by
        simp [List.append_assoc]
      rw [hrw]
      have hlen_take : (rest.take (c.start_line - 1 - pos).toNat).length =
          (c.start_line - 1 - pos).toNat :=
        List.length_take_of_le (by omega)
      have hoff : (((pre ++ rest.take (c.start_line - 1 - pos).toNat
              ++ splitNl (c.refactored_content.getD [])).length : Int)
            - c.end_line)
          = (pre.length : Int) - pos +
              ((splitNl (c.refactored_content.getD [])).length : Int) -
              ((splitNl c.content).length : Int) := by
        simp only [List.length_append, hlen_take]
        push_cast
        omega
      rw [← hoff]
      rw [ih _ (rest.drop (c.end_line - pos).toNat) c.end_line (by omega)
        (by rw [List.length_drop]
            have : (c.end_line : Int) +
                ((rest.length - (c.end_line - pos).toNat : Nat) : Int) =
                pos + rest.length := by omega
            rw [this]
            exact h4)
        (fun d hd hdt => hlen d (List.mem_cons_of_mem _ hd) hdt)]
      simp only [applyChunks, List.append_assoc]
    · rw [List.filter_cons_of_neg (by simpa using ht)] at hwf ⊢
      simp only [mergeLoop, ht]
      exact ih pre rest pos hpos hwf
        (fun d hd hdt => hlen d (List.mem_cons_of_mem _ hd) hdt)

theorem applyChunks_length :
    ∀ (cs : List CodeChunk) (rest : List (List Char)) (pos : Int),
      0 ≤ pos → ChunksWF cs pos (pos + rest.length) →
      ((applyChunks cs rest pos).length : Int) =
        (rest.length : Int) + (cs.map spanDelta).sum := by
  intro cs
  induction cs with
  | nil => intro rest pos _ _; simp [applyChunks]
  | cons c cs ih =>
    intro rest pos hpos hwf
    rcases hwf with ⟨h1, h2, h3, h4⟩
    have hrec := ih (rest.drop (c.end_line - pos).toNat) c.end_line (by omega)
      (by rw [List.length_drop]
          have : (c.end_line : Int) +
              ((rest.length - (c.end_line - pos).toNat : Nat) : Int) =
              pos + rest.length := by omega
          rw [this]
          exact h4)
    simp only [applyChunks, List.length_append, List.map_cons, List.sum_cons]
    have htake : (rest.take (c.start_line - 1 - pos).toNat).length =
        (c.start_line - 1 - pos).toNat :=
      List.length_take_of_le (by omega)
    have hdrop : ((rest.drop (c.end_line - pos).toNat).length : Int) =
        (rest.length : Int) - (c.end_line - pos) := by
      rw [List.length_drop]
      omega
    rw [hdrop] at hrec
    push_cast
    rw [hrec]
    unfold spanDelta
    push_cast [htake]
    omega

theorem netDelta_sum_eq_filter (cs : List CodeChunk)
    (hlen : ∀ c ∈ cs, truthy c.refactored_content = true →
      ((splitNl c.content).length : Int) = c.end_line - c.start_line + 1) :
    (cs.map netDelta).sum =
      ((cs.filter (fun c => truthy c.refactored_content)).map spanDelta).sum := by
  induction cs with
  | nil => rfl
  | cons c cs ih =>
    have ihr := ih (fun d hd hdt => hlen d (List.mem_cons_of_mem _ hd) hdt)
    by_cases ht : truthy c.refactored_content = true
    · rw [List.filter_cons_of_pos (by simpa using ht)]
      simp only [List.map_cons, List.sum_cons, ihr]
      have hol := hlen c (List.mem_cons_self _ _) ht
      unfold netDelta spanDelta
      rw [if_pos ht, hol]
    · rw [List.filter_cons_of_neg (by simpa using ht)]
      simp only [List.map_cons, List.sum_cons, ihr]
      unfold netDelta
      rw [if_neg ht]
      omega

theorem applyChunks_no_nl :
    ∀ (cs : List CodeChunk) (rest : List (List Char)) (pos : Int),
      (∀ l ∈ rest, '\n' ∉ l) →
      ∀ l ∈ applyChunks cs rest pos, '\n' ∉ l := by
  intro cs
  induction cs with
  | nil => intro rest pos h l hl; exact h l hl
  | cons c cs ih =>
    intro rest pos h l hl
    simp only [applyChunks, List.append_assoc, List.mem_append] at hl
    rcases hl with hl | hl | hl
    · exact h l (List.mem_of_mem_take hl)
    · exact not_mem_nl_splitNl _ l hl
    · exact ih _ c.end_line (fun m hm => h m (List.mem_of_mem_drop hm)) l hl

theorem applyChunks_ne_nil (cs : List CodeChunk) (rest : List (List Char))
    (pos : Int) (h : rest ≠ []) : applyChunks cs rest pos ≠ [] := by
  cases cs with
  | nil => exact h
  | cons c cs =>
    simp only [applyChunks, List.append_assoc, ne_eq, List.append_eq_nil]
    intro hc
    exact splitNl_ne_nil _ hc.2.1

theorem chunksWF_filter_lt_nil :
    ∀ (cs : List CodeChunk) (pos tot j : Int), ChunksWF cs pos tot →
      j ≤ pos + 1 →
      cs.filter (fun c => decide (c.end_line < j)) = [] := by
  intro cs
  induction cs with
  | nil => intro pos tot j _ _; rfl
  | cons c cs ih =>
    intro pos tot j hwf hj
    rcases hwf with ⟨h1, h2, h3, h4⟩
    rw [List.filter_cons_of_neg (by simp only [decide_eq_true_eq]; omega)]
    exact ih c.end_line tot j h4 (by omega)

theorem applyChunks_getD :
    ∀ (cs : List CodeChunk) (rest : List (List Char)) (pos j : Int),
      0 ≤ pos →
      ChunksWF cs pos (pos + rest.length) →
      pos < j → j ≤ pos + rest.length →
      (∀ c ∈ cs, ¬(c.start_line ≤ j ∧ j ≤ c.end_line)) →
      ∃ k : Nat, (k : Int) = j - pos - 1 +
          ((cs.filter (fun c => decide (c.end_line < j))).map spanDelta).sum ∧
        (applyChunks cs rest pos).getD k [] =
          rest.getD (j - pos - 1).toNat [] := by
  intro cs
  induction cs with
  | nil =>
    intro rest pos j hpos _ hj1 _ _
    refine ⟨(j - pos - 1).toNat, by simp; omega, rfl⟩
  | cons c cs ih =>
    intro rest pos j hpos hwf hj1 hj2 hout
    rcases hwf with ⟨h1, h2, h3, h4⟩
    have hc := hout c (List.mem_cons_self _ _)
    have hcases : j < c.start_line ∨ c.end_line < j := by omega
    have htake : (rest.take (c.start_line - 1 - pos).toNat).length =
        (c.start_line - 1 - pos).toNat :=
      List.length_take_of_le (by omega)
    rcases hcases with hlt | hgt
    · -- the untouched line lies strictly before this chunk
      have hfilter : (c :: cs).filter
          (fun c => decide (c.end_line < j)) = [] := by
        rw [List.filter_cons_of_neg (by simp only [decide_eq_true_eq]; omega)]
        exact chunksWF_filter_lt_nil cs c.end_line _ j h4 (by omega)
      refine ⟨(j - pos - 1).toNat, by rw [hfilter]; simp; omega, ?_⟩
      simp only [applyChunks]
      rw [List.getD_eq_getElem?_getD, List.getD_eq_getElem?_getD]
      rw [List.getElem?_append_left (by
        simp only [List.length_append, htake]
        omega)]
      rw [List.getElem?_append_left (by rw [htake]; omega)]
      rw [List.getElem?_take, if_pos (by omega)]
    · -- the untouched line lies strictly after this chunk
      have hrest' : (c.end_line : Int) +
          ((rest.drop (c.end_line - pos).toNat).length : Int) =
          pos + rest.length := by
        rw [List.length_drop]
        omega
      obtain ⟨k', hk', hget'⟩ := ih (rest.drop (c.end_line - pos).toNat)
        c.end_line j (by omega) (by rw [hrest']; exact h4)
        hgt (by omega)
        (fun d hd => hout d (List.mem_cons_of_mem _ hd))
      refine ⟨(c.start_line - 1 - pos).toNat +
          (splitNl (c.refactored_content.getD [])).length + k', ?_, ?_⟩
      · rw [List.filter_cons_of_pos (by simp only [decide_eq_true_eq]; omega)]
        simp only [List.map_cons, List.sum_cons]
        have hsd : spanDelta c =
            ((splitNl (c.refactored_content.getD [])).length : Int) -
              (c.end_line - c.start_line + 1) := rfl
        rw [hsd]
        push_cast
        omega
      · simp only [applyChunks]
        rw [List.getD_eq_getElem?_getD, List.getD_eq_getElem?_getD] at hget' ⊢
        rw [List.getElem?_append_right (by
          simp only [List.length_append, htake]
          omega)]
        have hidx : (c.start_line - 1 - pos).toNat +
            (splitNl (c.refactored_content.getD [])).length + k' -
            (rest.take (c.start_line - 1 - pos).toNat ++
              splitNl (c.refactored_content.getD [])).length = k' := by
          simp only [List.length_append, htake]
          omega
        rw [hidx, hget']
        congr 1
        rw [List.getElem?_drop]
        congr 1
        omega

theorem shiftBefore_eq_filter (cs : List CodeChunk) (j : Int)
    (hlen : ∀ c ∈ cs, truthy c.refactored_content = true →
      ((splitNl c.content).length : Int) = c.end_line - c.start_line + 1) :
    shiftBefore cs j =
      (((cs.filter (fun c => truthy c.refactored_content)).filter
          (fun c => decide (c.end_line < j))).map spanDelta).sum := by
  unfold shiftBefore
  induction cs with
  | nil => rfl
  | cons c cs ih =>
    have ihr := ih (fun d hd hdt => hlen d (List.mem_cons_of_mem _ hd) hdt)
    by_cases ht : truthy c.refactored_content = true
    · have et : List.filter (fun d => truthy d.refactored_content) (c :: cs) =
          c :: List.filter (fun d => truthy d.refactored_content) cs :=
        List.filter_cons_of_pos ht
      rw [et]
      by_cases he : c.end_line < j
      · have e1 : List.filter (fun d => decide (d.end_line < j)) (c :: cs) =
            c :: List.filter (fun d => decide (d.end_line < j)) cs :=
          List.filter_cons_of_pos (by simpa using he)
        have e2 : List.filter (fun d => decide (d.end_line < j))
              (c :: List.filter (fun d => truthy d.refactored_content) cs) =
            c :: List.filter (fun d => decide (d.end_line < j))
              (List.filter (fun d => truthy d.refactored_content) cs) :=
          List.filter_cons_of_pos (by simpa using he)
        rw [e1, e2]
        simp only [List.map_cons, List.sum_cons, ihr]
        have hol := hlen c (List.mem_cons_self _ _) ht
        unfold netDelta spanDelta
        rw [if_pos ht, hol]
      · have e1 : List.filter (fun d => decide (d.end_line < j)) (c :: cs) =
            List.filter (fun d => decide (d.end_line < j)) cs :=
          List.filter_cons_of_neg (by simpa using he)
        have e2 : List.filter (fun d => decide (d.end_line < j))
              (c :: List.filter (fun d => truthy d.refactored_content) cs) =
            List.filter (fun d => decide (d.end_line < j))
              (List.filter (fun d => truthy d.refactored_content) cs) :=
          List.filter_cons_of_neg (by simpa using he)
        rw [e1, e2]
        exact ihr
    · have et : List.filter (fun d => truthy d.refactored_content) (c :: cs) =
          List.filter (fun d => truthy d.refactored_content) cs :=
        List.filter_cons_of_neg (by simpa using ht)
      rw [et]
      by_cases he : c.end_line < j
      · have e1 : List.filter (fun d => decide (d.end_line < j)) (c :: cs) =
            c :: List.filter (fun d => decide (d.end_line < j)) cs :=
          List.filter_cons_of_pos (by simpa using he)
        rw [e1]
        simp only [List.map_cons, List.sum_cons, ihr]
        unfold netDelta
        rw [if_neg ht]
        omega
      · have e1 : List.filter (fun d => decide (d.end_line < j)) (c :: cs) =
            List.filter (fun d => decide (d.end_line < j)) cs :=
          List.filter_cons_of_neg (by simpa using he)
        rw [e1]
        exact ihr

theorem chunksWF_of_pairwise :
    ∀ (cs : List CodeChunk) (pos tot : Int),
      (∀ c ∈ cs, pos < c.start_line ∧ c.start_line ≤ c.end_line ∧
        c.end_line ≤ tot) →
      List.Pairwise (fun a b : CodeChunk => a.end_line < b.start_line) cs →
      ChunksWF cs pos tot := by
  intro cs
  induction cs with
  | nil => intro pos tot _ _; trivial
  | cons c cs ih =>
    intro pos tot hb hpw
    have hc := hb c (List.mem_cons_self _ _)
    refine ⟨hc.1, hc.2.1, hc.2.2, ?_⟩
    apply ih
    · intro d hd
      exact ⟨(List.pairwise_cons.1 hpw).1 d hd,
        (hb d (List.mem_cons_of_mem _ hd)).2.1,
        (hb d (List.mem_cons_of_mem _ hd)).2.2⟩
    · exact (List.pairwise_cons.1 hpw).2

/-- C2: for every `FileContext` on the multi-chunk merge path whose
chunks have in-bounds, pairwise non-overlapping strictly increasing
replace ranges and whose rewritten chunks' `content` spans their range
(as the chunk engine guarantees), the merged text's total line count
equals the original total plus the sum of the per-chunk rewritten-minus-
original line-count differences, and every original line outside all
replace ranges reappears unchanged, at its original position shifted by
the net delta of the chunks that end before it. -/
theorem merge_offset_and_frame (ctx : FileContext)
    (hpath : ¬(ctx.chunks.length = 1 ∧
      (ctx.chunks.headD default).chunk_type = "full_file"))
    (hbounds : ∀ c ∈ ctx.chunks, 1 ≤ c.start_line ∧
      c.start_line ≤ c.end_line ∧
      c.end_line ≤ ((splitNl ctx.original_content).length : Int))
    (hpw : List.Pairwise (fun a b : CodeChunk => a.end_line < b.start_line)
      ctx.chunks)
    (hlen : ∀ c ∈ ctx.chunks, truthy c.refactored_content = true →
      ((splitNl c.content).length : Int) = c.end_line - c.start_line + 1) :
    ((splitNl (merge_refactored_chunks ctx)).length : Int) =
      ((splitNl ctx.original_content).length : Int) +
        (ctx.chunks.map netDelta).sum ∧
    ∀ j : Int, 0 < j →
      j ≤ ((splitNl ctx.original_content).length : Int) →
      (∀ c ∈ ctx.chunks, ¬(c.start_line ≤ j ∧ j ≤ c.end_line)) →
      ∃ k : Nat, (k : Int) = j - 1 + shiftBefore ctx.chunks j ∧
        (splitNl (merge_refactored_chunks ctx)).getD k [] =
          (splitNl ctx.original_content).getD (j - 1).toNat [] := by
  have hsorted : List.Sorted
      (fun a b : CodeChunk => a.start_line ≤ b.start_line) ctx.chunks := by
    refine hpw.imp_of_mem ?_
    intro a b ha _ hr
    have := (hbounds a ha).2.1
    omega
  have hwf : ChunksWF
      (ctx.chunks.filter (fun c => truthy c.refactored_content)) 0
      ((0 : Int) + ((splitNl ctx.original_content).length : Int)) := by
    apply chunksWF_of_pairwise
    · intro c hc
      have := hbounds c (List.mem_of_mem_filter hc)
      refine ⟨by omega, this.2.1, by omega⟩
    · exact hpw.filter _
  have key : merge_refactored_chunks ctx =
      joinNl (applyChunks
        (ctx.chunks.filter (fun c => truthy c.refactored_content))
        (splitNl ctx.original_content) 0) := by
    unfold merge_refactored_chunks
    rw [if_neg hpath]
    show joinNl (mergeLoop (List.insertionSort
        (fun a b : CodeChunk => a.start_line ≤ b.start_line) ctx.chunks)
        (splitNl ctx.original_content) 0) = _
    rw [hsorted.insertionSort_eq]
    have := mergeLoop_eq_applyChunks ctx.chunks [] (splitNl ctx.original_content)
      0 le_rfl (by simpa using hwf) hlen
    rw [show joinNl (mergeLoop ctx.chunks (splitNl ctx.original_content) 0) =
        joinNl (mergeLoop ctx.chunks ([] ++ splitNl ctx.original_content)
          ((([] : List (List Char)).length : Int) - 0)) by norm_num]
    rw [this, List.nil_append]
  have hnn : ∀ l ∈ applyChunks
      (ctx.chunks.filter (fun c => truthy c.refactored_content))
      (splitNl ctx.original_content) 0, '\n' ∉ l :=
    applyChunks_no_nl _ _ _ (not_mem_nl_splitNl _)
  have hne : applyChunks
      (ctx.chunks.filter (fun c => truthy c.refactored_content))
      (splitNl ctx.original_content) 0 ≠ [] :=
    applyChunks_ne_nil _ _ _ (splitNl_ne_nil _)
  have hsplit : splitNl (merge_refactored_chunks ctx) =
      applyChunks (ctx.chunks.filter (fun c => truthy c.refactored_content))
        (splitNl ctx.original_content) 0 := by
    rw [key]
    exact splitNl_joinNl _ hne hnn
  constructor
  · rw [hsplit]
    have hlength := applyChunks_length
      (ctx.chunks.filter (fun c => truthy c.refactored_content))
      (splitNl ctx.original_content) 0 le_rfl hwf
    rw [hlength, netDelta_sum_eq_filter ctx.chunks hlen]
  · intro j hj1 hj2 hout
    obtain ⟨k, hk, hget⟩ := applyChunks_getD
      (ctx.chunks.filter (fun c => truthy c.refactored_content))
      (splitNl ctx.original_content) 0 j le_rfl hwf (by omega) (by omega)
      (fun c hc => hout c (List.mem_of_mem_filter hc))
    refine ⟨k, ?_, ?_⟩
    · rw [hk, shiftBefore_eq_filter ctx.chunks j hlen]
      omega
    · rw [hsplit, hget]
      congr 2
      omega

/-- C2 witness context: two disjoint rewritten chunks over a five-line
file (net delta +1 and 0). -/
def ctxC2 : FileContext :=
  { chunks :=
      [ { chunk_id := 0, content := "b\nc".toList, start_line := 2,
          end_line := 3, chunk_type := "lines",
          refactored_content := some "X\nY\nZ".toList }
      , { chunk_id := 1, content := "e".toList, start_line := 5,
          end_line := 5, chunk_type := "lines",
          refactored_content := some "W".toList } ]
    original_content := "a\nb\nc\nd\ne".toList }

/-- C2 witness: the offset/frame theorem at `ctxC2`, with the untouched
line `j = 4` (original line `d`). -/
theorem merge_offset_and_frame_witness :
    ((splitNl (merge_refactored_chunks ctxC2)).length : Int) =
      ((splitNl ctxC2.original_content).length : Int) +
        (ctxC2.chunks.map netDelta).sum ∧
    ∃ k : Nat, (k : Int) = 4 - 1 + shiftBefore ctxC2.chunks 4 ∧
      (splitNl (merge_refactored_chunks ctxC2)).getD k [] =
        (splitNl ctxC2.original_content).getD ((4 : Int) - 1).toNat [] :=
  ⟨(merge_offset_and_frame ctxC2 (by decide) (by decide) (by decide)
      (by decide)).1,
   (merge_offset_and_frame ctxC2 (by decide) (by decide) (by decide)
      (by decide)).2 4 (by decide) (by decide) (by decide)⟩

end DSP
